import Mathlib

/-!
# Verification of the colored-noise generator (`colorednoise.py`)

This file gives a shallow embedding of `powerlaw_psd_gaussian` from
`src/colorednoise.py` and settles the frozen claims about it.

The Python function works on float64 arrays; the embedding idealises the
float arithmetic as exact arithmetic: the pre-exponent frequency magnitudes
(which are ratios `k / samples`) and the low-frequency-cutoff bookkeeping
live in `ℚ`, and everything past the (transcendental) exponentiation step
lives in `ℝ`/`ℂ`.  The process-wide Gaussian random stream feeding
`numpy.random.normal` is dependency-injected: the real and imaginary draws
are explicit arguments `sr si`, and the probabilistic claims integrate over
the standard Gaussian product measure on those draws.
-/

open scoped BigOperators

namespace ColoredNoise

/-! ## Frequency grid and scale vector (lines 66-80 of the source)

`fftfreq(samples)` followed by `abs(f[:samples//2 + 1])` yields the vector
`k / samples` for `k = 0 .. samples//2` (for even `samples` the last entry
is `|-(samples/2)/samples| = (samples/2)/samples`), and line 70 replaces the
DC entry by `1/samples`. -/

/-- Number of one-sided frequency bins: `len(s_scale) = samples//2 + 1`. -/
def numBins (n : ℕ) : ℕ := n / 2 + 1

/-- Pre-exponent frequency magnitudes `s_scale` after line 70:
entry `k` is `k / samples`, except entry `0` which is set to `1 / samples`. -/
def sQ (n : ℕ) (k : ℕ) : ℚ := if k = 0 then 1 / (n : ℚ) else (k : ℚ) / n

/-- Line 77: `ix = sum(s_scale < fmin)`, the number of bins whose
pre-exponent magnitude is strictly below `fmin`. -/
def cutIx (n : ℕ) (fmin : ℚ) : ℕ :=
  ((Finset.range (numBins n)).filter (fun k => sQ n k < fmin)).card

/-- Lines 76-79: the low-frequency cutoff.  `if fmin:` is Python float
truthiness, i.e. `fmin ≠ 0`; when moreover `ix < len(s_scale)` the slice
assignment `s_scale[:ix] = s_scale[ix]` flattens entries `0 .. ix-1`. -/
def sCut (n : ℕ) (fmin : ℚ) (k : ℕ) : ℚ :=
  if fmin = 0 then sQ n k
  else if cutIx n fmin < numBins n then
    (if k < cutIx n fmin then sQ n (cutIx n fmin) else sQ n k)
  else sQ n k

/-- Line 80: `s_scale = s_scale**(-exponent/2.)`, the applied scale vector. -/
noncomputable def sScale (n : ℕ) (e : ℝ) (fmin : ℚ) (k : ℕ) : ℝ :=
  ((sCut n fmin k : ℝ)) ^ (-e / 2)

/-! ## Spectral sampler (lines 88-100) -/

/-- Lines 93 and 96: the imaginary draws after the in-place mutations
`si[...,-1] = 0` (only when `samples` is even; the last bin has index
`samples//2`) and `si[...,0] = 0`. -/
def siAdj (n : ℕ) (si : ℕ → ℝ) (k : ℕ) : ℝ :=
  if k = 0 then 0 else if n % 2 = 0 ∧ k = n / 2 then 0 else si k

/-- Line 100: the pre-scale complex spectrum `s = sr + 1J*si` (with the
mutated `si`). -/
noncomputable def specZ (n : ℕ) (sr si : ℕ → ℝ) (k : ℕ) : ℂ :=
  (sr k : ℂ) + (siAdj n si k : ℂ) * Complex.I

/-- The scaled one-sided spectrum `s * s_scale` passed to `irfft`. -/
noncomputable def specScaled (n : ℕ) (e : ℝ) (fmin : ℚ) (sr si : ℕ → ℝ) (k : ℕ) : ℂ :=
  (sScale n e fmin k : ℂ) * specZ n sr si k

/-- The full Hermitian spectrum that `irfft` implicitly reconstructs from
the one-sided input: bin `j ≤ samples//2` is taken as given, bin
`j > samples//2` is the conjugate of bin `samples - j`. -/
noncomputable def specFull (n : ℕ) (e : ℝ) (fmin : ℚ) (sr si : ℕ → ℝ) (j : ℕ) : ℂ :=
  if j ≤ n / 2 then specScaled n e fmin sr si j
  else (starRingEnd ℂ) (specScaled n e fmin sr si (n - j))

/-- The inverse-DFT kernel `exp(2πi c t / n)` (integer frequency `c`). -/
noncomputable def eKer (n : ℕ) (c : ℤ) (t : ℕ) : ℂ :=
  Complex.exp (2 * (Real.pi : ℂ) * Complex.I * (c : ℂ) * (t : ℂ) / (n : ℂ))

/-- Line 101: `y = irfft(s * s_scale, n=samples, axis=-1)` with numpy's
backward normalisation: `y[t] = (1/n) * Σ_j X_full[j] * exp(2πi j t / n)`,
which is real for a Hermitian input (the embedding takes the real part, as
`irfft` returns a real array). -/
noncomputable def irfftOut (n : ℕ) (e : ℝ) (fmin : ℚ) (sr si : ℕ → ℝ) (t : ℕ) : ℝ :=
  (((n : ℂ))⁻¹ * ∑ j ∈ Finset.range n, specFull n e fmin sr si j * eKer n (j : ℤ) t).re

/-! ## Variance normalizer (lines 103-110) -/

/-- The Nyquist-weight adjustment factor `(1 + (samples % 2)) / 2.` of
line 107 (float division in the source). -/
def nyqFactor (n : ℕ) : ℚ := (1 + ((n % 2 : ℕ) : ℚ)) / 2

/-- Lines 105-107: the weight vector after `weights[...,0] = 0` and
`weights[...,-1] *= (1 + (samples % 2)) / 2.` (the last bin has index
`samples//2`), before the squaring of line 108. -/
noncomputable def wMut (n : ℕ) (e : ℝ) (fmin : ℚ) (k : ℕ) : ℝ :=
  (if k = 0 then 0 else sScale n e fmin k) * (if k = n / 2 then (nyqFactor n : ℝ) else 1)

/-- Line 108-109: `weights = weights**2` and `weights.sum()`. -/
noncomputable def wSum (n : ℕ) (e : ℝ) (fmin : ℚ) : ℝ :=
  ∑ k ∈ Finset.range (numBins n), (wMut n e fmin k) ^ 2

/-- Line 109: `std = 2 * sqrt(weights.sum()) / samples`. -/
noncomputable def stdTheo (n : ℕ) (e : ℝ) (fmin : ℚ) : ℝ :=
  2 * Real.sqrt (wSum n e fmin) / n

/-- Modelled from the claim's wording, for refinement comparison with
`stdTheo`: the std computed with the Nyquist multiplication of line 107
omitted, used to test whether that step is a no-op. -/
noncomputable def stdNoNyqStep (n : ℕ) (e : ℝ) (fmin : ℚ) : ℝ :=
  2 * Real.sqrt (∑ k ∈ Finset.range (numBins n),
    (if k = 0 then 0 else sScale n e fmin k) ^ 2) / n

/-- Modelled from the claim's wording, for refinement comparison with
`stdTheo`: weights obtained by *first squaring* each entry of the applied
scale vector, *then* zeroing the DC weight, *then* multiplying the Nyquist
(last) weight by `(1 + samples % 2) / 2`; std is `2 * sqrt(sum) / samples`.
The source instead multiplies the un-squared last weight by the factor
before squaring. -/
noncomputable def stdClaimOrder (n : ℕ) (e : ℝ) (fmin : ℚ) : ℝ :=
  2 * Real.sqrt (∑ k ∈ Finset.range (numBins n),
    (if k = 0 then 0 else (sScale n e fmin k) ^ 2) *
      (if k = n / 2 then (nyqFactor n : ℝ) else 1)) / n

/-- Line 110: the returned time series, `y / std`. -/
noncomputable def output (n : ℕ) (e : ℝ) (fmin : ℚ) (sr si : ℕ → ℝ) (t : ℕ) : ℝ :=
  irfftOut n e fmin sr si t / stdTheo n e fmin

/-! ## Sample statistics -/

/-- Sample mean of the first `n` values of a sequence. -/
noncomputable def seqMean (n : ℕ) (y : ℕ → ℝ) : ℝ := (∑ t ∈ Finset.range n, y t) / n

/-- (Population-normalised) sample variance of the first `n` values. -/
noncomputable def seqVar (n : ℕ) (y : ℕ → ℝ) : ℝ :=
  (∑ t ∈ Finset.range n, (y t - seqMean n y) ^ 2) / n

/-! ## Shape handling and failure behaviour (lines 56-63 and the numpy
primitives)

The shape argument is an integer or a list of integers.  Lines 57-60
normalise it to a list (`list(size)` copies a list; for an `int` the
`TypeError` is caught and the scalar is wrapped).  The source performs no
validation of its own; the only failures are the ones raised by the numpy
primitives:
* `size[-1]` on an empty list raises `IndexError`;
* `fftfreq(samples)` with negative `samples` raises `ValueError`
  (`negative dimensions are not allowed`);
* with `samples = 0`, `fftfreq` returns an empty array and the subsequent
  `s_scale[0] = 1/samples` raises `ZeroDivisionError` (the right-hand side
  `1/samples` is evaluated first);
* `normal(size=size)` raises `ValueError` if any batch dimension is
  negative; zero-sized batch dimensions are accepted and give an empty
  (but well-formed) output array. -/

/-- Python exceptions that the pipeline can surface. -/
inductive PyErr where
  | indexError : PyErr
  | valueError : PyErr
  | zeroDivisionError : PyErr
  deriving DecidableEq, Repr

/-- The `size` argument: an integer or a list of integers. -/
def SizeArg : Type := ℤ ⊕ List ℤ

/-- Lines 57-60: normalise `size` to a list. -/
def normalizeSize : SizeArg → List ℤ
  | Sum.inl z => [z]
  | Sum.inr l => l

/-- The whole call at the shape level: returns the shape of the output
array together with its entries (`data b t` is the value at flat batch
index `b` and time index `t`), or the Python exception raised.  The draws
`sr b`/`si b` are the standard-normal variates consumed by realization
`b`.  Line 73 rewrites `size[-1]` to the bin count, so the batch
dimensions of the result come from the mutated list while the last axis
comes from `irfft(..., n=samples)`; hence the output shape is
`size.dropLast ++ [samples]`. -/
noncomputable def powerlawSized (e : ℝ) (fmin : ℚ) (size : List ℤ) (sr si : ℕ → ℕ → ℝ) :
    Except PyErr (List ℤ × (ℕ → ℕ → ℝ)) :=
  match size.getLast? with
  | none => Except.error PyErr.indexError
  | some samples =>
    if samples < 0 then Except.error PyErr.valueError
    else if samples = 0 then Except.error PyErr.zeroDivisionError
    else if size.dropLast.any (fun d => d < 0) then Except.error PyErr.valueError
    else Except.ok (size.dropLast ++ [samples],
      fun b t => output samples.toNat e fmin (sr b) (si b) t)

/-- The whole call: normalise the shape, then run the sized pipeline. -/
noncomputable def powerlawRun (e : ℝ) (fmin : ℚ) (arg : SizeArg) (sr si : ℕ → ℕ → ℝ) :
    Except PyErr (List ℤ × (ℕ → ℕ → ℝ)) :=
  powerlawSized e fmin (normalizeSize arg) sr si

/-! ## The random source (the standard-normal draws of lines 88-89)

`numpy.random.normal(size=size)` fills each entry with an independent
standard-normal variate; the joint law of the one-sided draw arrays
`(sr, si)` of a single realization is the product of `2 * (samples//2 + 1)`
standard Gaussians. -/

/-- The standard Gaussian law of a single draw. -/
noncomputable def gauss : MeasureTheory.Measure ℝ := ProbabilityTheory.gaussianReal 0 1

/-- The joint law of one one-sided draw vector (iid standard normals). -/
noncomputable def gaussPi (n : ℕ) : MeasureTheory.Measure (Fin (numBins n) → ℝ) :=
  MeasureTheory.Measure.pi (fun _ => gauss)

/-- The joint law of the pair `(sr, si)` of draw vectors of one
realization. -/
noncomputable def gaussDraws (n : ℕ) :
    MeasureTheory.Measure ((Fin (numBins n) → ℝ) × (Fin (numBins n) → ℝ)) :=
  (gaussPi n).prod (gaussPi n)

/-- Extend a one-sided draw vector to all of `ℕ` (the pipeline only ever
reads indices below `numBins n`). -/
def extDraw {n : ℕ} (v : Fin (numBins n) → ℝ) (k : ℕ) : ℝ :=
  if h : k < numBins n then v ⟨k, h⟩ else 0

/-- The one-sided bin that full-spectrum index `j` folds onto. -/
def binIdx (n j : ℕ) : ℕ := if j ≤ n / 2 then j else n - j

/-- Squared magnitude of one scaled spectral bin, as a function of the
draws. -/
noncomputable def binPower (n : ℕ) (e : ℝ) (fmin : ℚ) (sr si : ℕ → ℝ) (k : ℕ) : ℝ :=
  sScale n e fmin k ^ 2 * ((sr k) ^ 2 + (siAdj n si k) ^ 2)

/-- Number of independent standard-normal degrees of freedom contributed
by the imaginary draw of bin `k ≥ 1` (zero at a forced Nyquist bin). -/
def dofNy (n k : ℕ) : ℝ := if n % 2 = 0 ∧ k = n / 2 then 0 else 1

instance : MeasureTheory.IsProbabilityMeasure gauss := by
  unfold gauss
  infer_instance

instance (n : ℕ) : MeasureTheory.IsProbabilityMeasure (gaussPi n) := by
  unfold gaussPi
  infer_instance

instance (n : ℕ) : MeasureTheory.IsProbabilityMeasure (gaussDraws n) := by
  unfold gaussDraws
  infer_instance

/-! ## Helper lemmas -/

theorem sCut_fmin_zero (n k : ℕ) : sCut n 0 k = sQ n k := by
  simp [sCut]

theorem sQ_pos {n : ℕ} (hn : 1 ≤ n) (k : ℕ) : 0 < sQ n k := by
  have hn0 : (0 : ℚ) < n := by exact_mod_cast hn
  unfold sQ
  split
  · positivity
  · have hk : 1 ≤ k := Nat.one_le_iff_ne_zero.mpr (by assumption)
    have : (0 : ℚ) < k := by exact_mod_cast hk
    positivity

theorem sCut_pos {n : ℕ} (hn : 1 ≤ n) (fmin : ℚ) (k : ℕ) : 0 < sCut n fmin k := by
  unfold sCut
  split
  · exact sQ_pos hn k
  · split
    · split
      · exact sQ_pos hn _
      · exact sQ_pos hn _
    · exact sQ_pos hn _

theorem sScale_pos {n : ℕ} (hn : 1 ≤ n) (e : ℝ) (fmin : ℚ) (k : ℕ) :
    0 < sScale n e fmin k := by
  have h : (0 : ℝ) < ((sCut n fmin k : ℚ) : ℝ) := by
    exact_mod_cast sCut_pos hn fmin k
  exact Real.rpow_pos_of_pos h _

theorem sScale_exponent_zero (n : ℕ) (fmin : ℚ) (k : ℕ) : sScale n 0 fmin k = 1 := by
  unfold sScale
  rw [show (-(0 : ℝ) / 2) = 0 by norm_num, Real.rpow_zero]

theorem wSum_eval_four : wSum 4 0 0 = 5 / 4 := by
  unfold wSum numBins
  rw [show (4 : ℕ) / 2 + 1 = 3 by norm_num]
  rw [Finset.sum_range_succ, Finset.sum_range_succ, Finset.sum_range_succ,
    Finset.sum_range_zero]
  simp only [wMut, sScale_exponent_zero, nyqFactor]
  norm_num

theorem wSumNoNyq_eval_four :
    (∑ k ∈ Finset.range (numBins 4), (if k = 0 then 0 else sScale 4 0 0 k) ^ 2) = 2 := by
  unfold numBins
  rw [show (4 : ℕ) / 2 + 1 = 3 by norm_num]
  rw [Finset.sum_range_succ, Finset.sum_range_succ, Finset.sum_range_succ,
    Finset.sum_range_zero]
  simp only [sScale_exponent_zero]
  norm_num

/-! ## Claim C2 -/

/-- Claim C2 counterexample: at `samples = 4` the Nyquist-weight adjustment
factor `(1 + samples % 2) / 2` equals `1/2`, not `1`, and the computed
standard deviation differs from the one computed with the multiplication
omitted — the step is not a no-op. -/
theorem claimC2_counterexample :
    nyqFactor 4 ≠ 1 ∧ stdTheo 4 0 0 ≠ stdNoNyqStep 4 0 0 := by
  constructor
  · norm_num [nyqFactor]
  · unfold stdTheo stdNoNyqStep
    rw [wSum_eval_four, wSumNoNyq_eval_four]
    intro h
    have h2 : Real.sqrt (5 / 4) = Real.sqrt 2 := by linarith
    rw [Real.sqrt_inj (by norm_num) (by norm_num)] at h2
    norm_num at h2

/-- Claim C2 (amended): the Nyquist-weight adjustment factor
`(1 + samples % 2) / 2` equals `1/2` for even `samples` and `1` for odd
`samples`; the multiplication therefore halves the Nyquist weight exactly
when `samples` is even. -/
theorem claimC2_amended_factor :
    ∀ n : ℕ, nyqFactor n = if n % 2 = 0 then 1 / 2 else 1 := by
  intro n
  rcases Nat.mod_two_eq_zero_or_one n with h | h <;> simp [nyqFactor, h]

/-! ## Claim C3 -/

theorem eKer_t_zero (n : ℕ) (c : ℤ) : eKer n c 0 = 1 := by
  simp [eKer]

theorem irfft_eval_four :
    irfftOut 4 0 0 (fun _ => 1) (fun _ => 0) 0 = 1 := by
  unfold irfftOut
  rw [Finset.sum_range_succ, Finset.sum_range_succ, Finset.sum_range_succ,
    Finset.sum_range_succ, Finset.sum_range_zero]
  simp only [eKer_t_zero, specFull, specScaled, specZ, siAdj, sScale_exponent_zero]
  norm_num

theorem wClaim_eval_four :
    (∑ k ∈ Finset.range (numBins 4),
      (if k = 0 then 0 else (sScale 4 0 0 k) ^ 2) *
        (if k = 4 / 2 then (nyqFactor 4 : ℝ) else 1)) = 3 / 2 := by
  unfold numBins
  rw [show (4 : ℕ) / 2 + 1 = 3 by norm_num]
  rw [Finset.sum_range_succ, Finset.sum_range_succ, Finset.sum_range_succ,
    Finset.sum_range_zero]
  simp only [sScale_exponent_zero, nyqFactor]
  norm_num

/-- Claim C3 counterexample: at `samples = 4`, `exponent = 0`, `fmin = 0`
the std computed in the claim's order (square, then zero DC, then multiply
the Nyquist weight by the factor) differs from the source's std (which
multiplies the un-squared Nyquist weight by the factor *before* squaring),
and the returned value at `t = 0` for draws `sr ≡ 1`, `si ≡ 0` differs
from the inverse transform divided by the claim's std. -/
theorem claimC3_counterexample :
    stdTheo 4 0 0 ≠ stdClaimOrder 4 0 0 ∧
    output 4 0 0 (fun _ => 1) (fun _ => 0) 0 ≠
      irfftOut 4 0 0 (fun _ => 1) (fun _ => 0) 0 / stdClaimOrder 4 0 0 := by
  have h1 : stdTheo 4 0 0 ≠ stdClaimOrder 4 0 0 := by
    unfold stdTheo stdClaimOrder
    rw [wSum_eval_four, wClaim_eval_four]
    intro h
    have h2 : Real.sqrt (5 / 4) = Real.sqrt (3 / 2) := by linarith
    rw [Real.sqrt_inj (by norm_num) (by norm_num)] at h2
    norm_num at h2
  have hT : 0 < stdTheo 4 0 0 := by
    unfold stdTheo
    rw [wSum_eval_four]
    positivity
  have hC : 0 < stdClaimOrder 4 0 0 := by
    unfold stdClaimOrder
    rw [wClaim_eval_four]
    positivity
  refine ⟨h1, ?_⟩
  unfold output
  rw [irfft_eval_four]
  intro h
  rw [div_eq_div_iff (by positivity) (by positivity)] at h
  simp only [one_mul] at h
  exact h1 h.symm

/-- Claim C3 (amended): the source's weights are obtained by zeroing the
DC entry of the applied scale vector, multiplying its last (Nyquist) entry
by `(1 + samples % 2) / 2`, and *then* squaring; equivalently the std has
the closed form `2 * sqrt(Σ_{k=1}^{samples//2} (factor_k * scale_k)^2) / samples`
with `factor_k = (1 + samples % 2)/2` at the Nyquist index and `1`
elsewhere; the returned array is the inverse-transform output divided
elementwise by this std. -/
theorem claimC3_amended_std : ∀ (n : ℕ) (e : ℝ) (fmin : ℚ),
    stdTheo n e fmin = 2 * Real.sqrt (∑ k ∈ Finset.Ico 1 (numBins n),
      ((if k = n / 2 then (nyqFactor n : ℝ) else 1) * sScale n e fmin k) ^ 2) / n ∧
    ∀ (sr si : ℕ → ℝ) (t : ℕ),
      output n e fmin sr si t = irfftOut n e fmin sr si t / stdTheo n e fmin := by
  intro n e fmin
  constructor
  · unfold stdTheo wSum
    rw [Finset.range_eq_Ico, @Finset.sum_eq_sum_Ico_succ_bot ℝ _ 0 (numBins n)
      (by unfold numBins; omega) (fun k => wMut n e fmin k ^ 2)]
    have h0 : wMut n e fmin 0 ^ 2 = 0 := by simp [wMut]
    have hsum : ∑ k ∈ Finset.Ico 1 (numBins n), wMut n e fmin k ^ 2 =
        ∑ k ∈ Finset.Ico 1 (numBins n),
          ((if k = n / 2 then (nyqFactor n : ℝ) else 1) * sScale n e fmin k) ^ 2 := by
      refine Finset.sum_congr rfl fun k hk => ?_
      have hk1 : 1 ≤ k := (Finset.mem_Ico.mp hk).1
      unfold wMut
      rw [if_neg (by omega)]
      ring
    rw [h0, zero_add, hsum]
  · intro sr si t
    rfl

/-! ## Claim C4 -/

/-- Claim C4: with `fmin = 0`, the applied scale vector has length
`samples//2 + 1`, its entry `k` equals `(k/samples)^(-exponent/2)` for
`1 ≤ k ≤ samples//2`, its entry `0` equals `(1/samples)^(-exponent/2)`,
and every entry is (finite and) strictly positive. -/
theorem claimC4_scale_formula : ∀ (n : ℕ) (e : ℝ), 1 ≤ n →
    (List.ofFn (fun k : Fin (numBins n) => sScale n e 0 k.val)).length = n / 2 + 1 ∧
    sScale n e 0 0 = ((1 : ℝ) / n) ^ (-e / 2) ∧
    (∀ k : ℕ, 1 ≤ k → k ≤ n / 2 → sScale n e 0 k = ((k : ℝ) / n) ^ (-e / 2)) ∧
    (∀ k : ℕ, k ≤ n / 2 → 0 < sScale n e 0 k) := by
  intro n e hn
  refine ⟨by simp [numBins], ?_, ?_, fun k _ => sScale_pos hn e 0 k⟩
  · unfold sScale
    rw [sCut_fmin_zero]
    unfold sQ
    norm_num
  · intro k hk1 _
    unfold sScale
    rw [sCut_fmin_zero]
    unfold sQ
    rw [if_neg (by omega)]
    push_cast
    rfl

/-- Witness for C4 at `samples = 3`, `exponent = 2`. -/
theorem claimC4_witness :
    1 ≤ 3 ∧
    ((List.ofFn (fun k : Fin (numBins 3) => sScale 3 2 0 k.val)).length = 3 / 2 + 1 ∧
    sScale 3 2 0 0 = ((1 : ℝ) / 3) ^ (-(2 : ℝ) / 2) ∧
    (∀ k : ℕ, 1 ≤ k → k ≤ 3 / 2 → sScale 3 2 0 k = ((k : ℝ) / 3) ^ (-(2 : ℝ) / 2)) ∧
    (∀ k : ℕ, k ≤ 3 / 2 → 0 < sScale 3 2 0 k)) :=
  ⟨by norm_num, claimC4_scale_formula 3 2 (by norm_num)⟩

/-! ## Claim C5 -/

/-- Claim C5: for `fmin > 0`, with `ix` the count of bins whose
pre-exponent magnitude is strictly below `fmin`: if `ix` is less than the
bin count then every bin with index at most `ix` holds the value
`s_scale[ix]` (the vector is flat on `0..ix`); if `ix` equals the bin
count, the vector is left unmodified. -/
theorem claimC5_cutoff : ∀ (n : ℕ) (fmin : ℚ), 0 < fmin →
    (cutIx n fmin < numBins n →
      ∀ k, k ≤ cutIx n fmin → sCut n fmin k = sQ n (cutIx n fmin)) ∧
    (cutIx n fmin = numBins n → ∀ k, sCut n fmin k = sQ n k) := by
  intro n fmin hpos
  have hne : fmin ≠ 0 := ne_of_gt hpos
  constructor
  · intro hlt k hk
    unfold sCut
    rw [if_neg hne, if_pos hlt]
    rcases Nat.lt_or_ge k (cutIx n fmin) with h | h
    · rw [if_pos h]
    · have : k = cutIx n fmin := le_antisymm hk h
      rw [if_neg (by omega), this]
  · intro heq k
    unfold sCut
    rw [if_neg hne, if_neg (by omega)]

/-- Witness for C5 at `samples = 8`, `fmin = 3/10`. -/
theorem claimC5_witness :
    0 < (3 / 10 : ℚ) ∧
    ((cutIx 8 (3 / 10) < numBins 8 →
      ∀ k, k ≤ cutIx 8 (3 / 10) → sCut 8 (3 / 10) k = sQ 8 (cutIx 8 (3 / 10))) ∧
    (cutIx 8 (3 / 10) = numBins 8 → ∀ k, sCut 8 (3 / 10) k = sQ 8 k)) :=
  ⟨by norm_num, claimC5_cutoff 8 (3 / 10) (by norm_num)⟩

/-! ## Claim C6 -/

/-- Claim C6 counterexample: `samples = 1` is odd, yet the imaginary part
of the last bin (index `1/2 = 0`, which coincides with the DC bin) *is*
constrained: it is forced to `0` even though the injected imaginary draw
there is `1`. -/
theorem claimC6_counterexample :
    1 % 2 = 1 ∧ (specZ 1 (fun _ => 0) (fun _ => 1) (1 / 2)).im = 0 := by
  constructor
  · rfl
  · simp [specZ, siAdj]

/-- Claim C6 (amended): in the pre-scale spectrum, the DC bin's imaginary
part is exactly `0`; for even `samples` the last (Nyquist) bin's imaginary
part is exactly `0`; for odd `samples ≥ 3` the last bin's imaginary part is
the unconstrained injected draw (for `samples = 1` the last bin coincides
with the DC bin and is forced to `0`). -/
theorem claimC6_amended_reality : ∀ (n : ℕ) (sr si : ℕ → ℝ),
    (specZ n sr si 0).im = 0 ∧
    (n % 2 = 0 → (specZ n sr si (n / 2)).im = 0) ∧
    (n % 2 = 1 → 3 ≤ n → (specZ n sr si (n / 2)).im = si (n / 2)) := by
  intro n sr si
  refine ⟨by simp [specZ, siAdj], fun he => ?_, fun ho hn => ?_⟩
  · unfold specZ siAdj
    rcases Nat.eq_zero_or_pos (n / 2) with h | h
    · rw [h]; simp
    · rw [if_neg (by omega), if_pos ⟨he, rfl⟩]; simp
  · unfold specZ siAdj
    rw [if_neg (by omega), if_neg (by omega)]
    simp

/-- Witness for C6 (amended) at `samples = 6` and `samples = 5`. -/
theorem claimC6_amended_witness :
    (6 % 2 = 0 ∧ (specZ 6 (fun _ => 1) (fun _ => 1) (6 / 2)).im = 0) ∧
    (5 % 2 = 1 ∧ 3 ≤ 5 ∧
      (specZ 5 (fun _ => 1) (fun _ => 1) (5 / 2)).im = (fun _ => (1 : ℝ)) (5 / 2)) :=
  ⟨⟨by norm_num, (claimC6_amended_reality 6 (fun _ => 1) (fun _ => 1)).2.1 (by norm_num)⟩,
   by norm_num, by norm_num,
   (claimC6_amended_reality 5 (fun _ => 1) (fun _ => 1)).2.2 (by norm_num) (by norm_num)⟩

/-! ## Claims C7 and C8: shape and failure behaviour -/

theorem powerlawSized_eq_of_getLast {size : List ℤ} {s : ℤ} (h : size.getLast? = some s)
    (e : ℝ) (fmin : ℚ) (sr si : ℕ → ℕ → ℝ) :
    powerlawSized e fmin size sr si =
      (if s < 0 then Except.error PyErr.valueError
      else if s = 0 then Except.error PyErr.zeroDivisionError
      else if size.dropLast.any (fun d => d < 0) then Except.error PyErr.valueError
      else Except.ok (size.dropLast ++ [s],
        fun b t => output s.toNat e fmin (sr b) (si b) t)) := by
  unfold powerlawSized
  rw [h]

theorem powerlawRun_ok_of_valid (e : ℝ) (fmin : ℚ) (arg : SizeArg)
    (sr si : ℕ → ℕ → ℝ) (hne : normalizeSize arg ≠ [])
    (hpos : ∀ d ∈ normalizeSize arg, 0 < d) :
    powerlawRun e fmin arg sr si =
      Except.ok (normalizeSize arg,
        fun b t => output ((normalizeSize arg).getLast hne).toNat e fmin (sr b) (si b) t) := by
  have hsome : (normalizeSize arg).getLast? = some ((normalizeSize arg).getLast hne) :=
    List.getLast?_eq_getLast _ hne
  have hlast : 0 < (normalizeSize arg).getLast hne :=
    hpos _ (List.getLast_mem hne)
  have hany : (normalizeSize arg).dropLast.any (fun d => decide (d < 0)) = false := by
    rw [List.any_eq_false]
    intro d hd
    have h0 : 0 < d := hpos d ((List.dropLast_sublist (normalizeSize arg)).subset hd)
    simp only [decide_eq_true_eq]
    omega
  unfold powerlawRun
  rw [powerlawSized_eq_of_getLast hsome]
  rw [if_neg (by omega), if_neg (by omega), hany, if_neg (by simp)]
  rw [List.dropLast_append_getLast hne]

/-- Claim C7: for a valid shape input (a positive integer, or a nonempty
sequence of positive integers), the call succeeds and the returned
(real-valued) array's shape is the normalized shape: `[n]` when the input
is the integer `n`, and exactly the given sequence otherwise (so the last
axis has length `samples`, the last element of the normalized shape). -/
theorem claimC7_shape : ∀ (e : ℝ) (fmin : ℚ) (arg : SizeArg) (sr si : ℕ → ℕ → ℝ),
    (∀ z : ℤ, arg = Sum.inl z → normalizeSize arg = [z]) ∧
    (∀ l : List ℤ, arg = Sum.inr l → normalizeSize arg = l) ∧
    (normalizeSize arg ≠ [] → (∀ d ∈ normalizeSize arg, 0 < d) →
      ∃ data : ℕ → ℕ → ℝ,
        powerlawRun e fmin arg sr si = Except.ok (normalizeSize arg, data)) := by
  intro e fmin arg sr si
  refine ⟨fun z hz => by rw [hz]; rfl, fun l hl => by rw [hl]; rfl, fun hne hpos => ?_⟩
  exact ⟨_, powerlawRun_ok_of_valid e fmin arg sr si hne hpos⟩

/-- Witness for C7 at shape `[2, 5]`. -/
theorem claimC7_witness :
    normalizeSize (Sum.inr [2, 5]) ≠ [] ∧ (∀ d ∈ normalizeSize (Sum.inr [2, 5]), 0 < d) ∧
    ∃ data : ℕ → ℕ → ℝ,
      powerlawRun 1 0 (Sum.inr [2, 5]) (fun _ _ => 0) (fun _ _ => 0) =
        Except.ok (normalizeSize (Sum.inr [2, 5]), data) :=
  ⟨by simp [normalizeSize], by decide,
    (claimC7_shape 1 0 (Sum.inr [2, 5]) (fun _ _ => 0) (fun _ _ => 0)).2.2
      (by simp [normalizeSize]) (by decide)⟩

/-- Claim C8 counterexample: the shape `[0, 8]` contains a non-positive
dimension, yet the call does **not** fail: it returns an (empty) output
array.  (The source also defines no `InvalidShapeError` at all; the only
errors it can surface come from the numpy primitives.) -/
theorem claimC8_counterexample :
    (0 : ℤ) ∈ normalizeSize (Sum.inr [0, 8]) ∧ ¬ (0 : ℤ) > 0 ∧
    ∃ shape data, powerlawRun 1 0 (Sum.inr [0, 8]) (fun _ _ => 0) (fun _ _ => 0) =
      Except.ok (shape, data) := by
  refine ⟨by simp [normalizeSize], by norm_num, [0, 8],
    fun b t => output (8 : ℤ).toNat 1 0 ((fun _ _ => (0 : ℝ)) b) ((fun _ _ => (0 : ℝ)) b) t, ?_⟩
  have hsome : (normalizeSize (Sum.inr [0, 8])).getLast? = some 8 := by
    simp [normalizeSize]
  unfold powerlawRun
  rw [powerlawSized_eq_of_getLast hsome, if_neg (by norm_num), if_neg (by norm_num),
    if_neg (by simp [normalizeSize])]
  rfl

/-- Claim C8 (amended): the source performs no shape validation of its own
and defines no `InvalidShapeError`.  A non-positive **last** (time)
dimension makes the call fail with an error from the numeric primitives
(`ValueError` for a negative value, `ZeroDivisionError` for zero), and a
negative batch dimension fails inside `normal(size=...)`; but a shape
whose batch dimensions are merely zero, with a positive last dimension,
succeeds and produces an output array. -/
theorem claimC8_amended_failure : ∀ (e : ℝ) (fmin : ℚ) (arg : SizeArg)
    (sr si : ℕ → ℕ → ℝ) (s : ℤ), (normalizeSize arg).getLast? = some s →
    ((s < 0 → powerlawRun e fmin arg sr si = Except.error PyErr.valueError) ∧
     (s = 0 → powerlawRun e fmin arg sr si = Except.error PyErr.zeroDivisionError) ∧
     (0 < s → (∃ d ∈ (normalizeSize arg).dropLast, d < 0) →
       powerlawRun e fmin arg sr si = Except.error PyErr.valueError) ∧
     (0 < s → (∀ d ∈ (normalizeSize arg).dropLast, 0 ≤ d) →
       ∃ data, powerlawRun e fmin arg sr si =
         Except.ok ((normalizeSize arg).dropLast ++ [s], data))) := by
  intro e fmin arg sr si s hsome
  refine ⟨fun hneg => ?_, fun hzero => ?_, fun hpos hdneg => ?_, fun hpos hbatch => ?_⟩
  · unfold powerlawRun
    rw [powerlawSized_eq_of_getLast hsome, if_pos hneg]
  · unfold powerlawRun
    rw [powerlawSized_eq_of_getLast hsome, if_neg (by omega), if_pos hzero]
  · obtain ⟨d, hd, hdlt⟩ := hdneg
    have hany : (normalizeSize arg).dropLast.any (fun x => decide (x < 0)) = true := by
      rw [List.any_eq_true]
      exact ⟨d, hd, by simpa using hdlt⟩
    unfold powerlawRun
    rw [powerlawSized_eq_of_getLast hsome,
      if_neg (by omega), if_neg (by omega), hany, if_pos rfl]
  · have hany : (normalizeSize arg).dropLast.any (fun d => decide (d < 0)) = false := by
      rw [List.any_eq_false]
      intro d hd
      have h0 := hbatch d hd
      simp only [decide_eq_true_eq]
      omega
    refine ⟨fun b t => output s.toNat e fmin (sr b) (si b) t, ?_⟩
    unfold powerlawRun
    rw [powerlawSized_eq_of_getLast hsome,
      if_neg (by omega), if_neg (by omega), hany, if_neg (by simp)]

/-- Witness for C8 (amended) at shape `[3, -2]` (negative time dimension
fails in `fftfreq`) and at shape `[-1, 5]` (positive time dimension but a
negative batch dimension, which fails inside `normal(size=...)`). -/
theorem claimC8_amended_witness :
    ((normalizeSize (Sum.inr [3, -2])).getLast? = some (-2) ∧ (-2 : ℤ) < 0 ∧
      powerlawRun 1 0 (Sum.inr [3, -2]) (fun _ _ => 0) (fun _ _ => 0) =
        Except.error PyErr.valueError) ∧
    ((normalizeSize (Sum.inr [-1, 5])).getLast? = some 5 ∧ (0 : ℤ) < 5 ∧
      (∃ d ∈ (normalizeSize (Sum.inr [-1, 5])).dropLast, d < 0) ∧
      powerlawRun 1 0 (Sum.inr [-1, 5]) (fun _ _ => 0) (fun _ _ => 0) =
        Except.error PyErr.valueError) :=
  ⟨⟨by simp [normalizeSize], by norm_num,
    (claimC8_amended_failure 1 0 (Sum.inr [3, -2]) (fun _ _ => 0) (fun _ _ => 0) (-2)
      (by simp [normalizeSize])).1 (by norm_num)⟩,
   by simp [normalizeSize], by norm_num,
   ⟨-1, by simp [normalizeSize], by norm_num⟩,
    (claimC8_amended_failure 1 0 (Sum.inr [-1, 5]) (fun _ _ => 0) (fun _ _ => 0) 5
      (by simp [normalizeSize])).2.2.1 (by norm_num)
      ⟨-1, by simp [normalizeSize], by norm_num⟩⟩

/-! ## Claim C9 -/

/-- Claim C9: the computation is deterministic apart from the injected
random source: two calls with identical parameters and an identical stream
of standard-normal draws return identical output. -/
theorem claimC9_deterministic :
    ∀ (e₁ e₂ : ℝ) (f₁ f₂ : ℚ) (a₁ a₂ : SizeArg) (sr₁ sr₂ si₁ si₂ : ℕ → ℕ → ℝ),
    e₁ = e₂ → f₁ = f₂ → a₁ = a₂ → sr₁ = sr₂ → si₁ = si₂ →
    powerlawRun e₁ f₁ a₁ sr₁ si₁ = powerlawRun e₂ f₂ a₂ sr₂ si₂ := by
  intro e₁ e₂ f₁ f₂ a₁ a₂ sr₁ sr₂ si₁ si₂ he hf ha hsr hsi
  rw [he, hf, ha, hsr, hsi]

/-- Witness for C9 at concrete identical calls. -/
theorem claimC9_witness :
    (1 : ℝ) = 1 ∧ (0 : ℚ) = 0 ∧ Sum.inl 5 = (Sum.inl 5 : SizeArg) ∧
    powerlawRun 1 0 (Sum.inl 5) (fun _ _ => 0) (fun _ _ => 0) =
      powerlawRun 1 0 (Sum.inl 5) (fun _ _ => 0) (fun _ _ => 0) :=
  ⟨rfl, rfl, rfl,
    claimC9_deterministic 1 1 0 0 (Sum.inl 5) (Sum.inl 5) (fun _ _ => 0) (fun _ _ => 0)
      (fun _ _ => 0) (fun _ _ => 0) rfl rfl rfl rfl rfl⟩

/-! ## Claim C10 -/

/-- Claim C10: for `0 < fmin ≤ 1/samples` the cutoff branch leaves the
scale vector unchanged (no bin's pre-exponent magnitude lies strictly
below `fmin`), so with the same draws the output coincides with the
`fmin = 0` output. -/
theorem claimC10_small_fmin : ∀ (n : ℕ) (fmin : ℚ), 1 ≤ n → 0 < fmin →
    fmin ≤ 1 / n →
    (∀ k, sCut n fmin k = sQ n k) ∧
    ∀ (e : ℝ) (sr si : ℕ → ℝ) (t : ℕ),
      output n e fmin sr si t = output n e 0 sr si t := by
  intro n fmin hn hpos hle
  have hn0 : (0 : ℚ) < n := by exact_mod_cast hn
  have hix : cutIx n fmin = 0 := by
    unfold cutIx
    rw [Finset.card_eq_zero, Finset.filter_eq_empty_iff]
    intro k _
    have hk : 1 / (n : ℚ) ≤ sQ n k := by
      unfold sQ
      split
      · exact le_refl _
      · have hk1 : 1 ≤ k := Nat.one_le_iff_ne_zero.mpr (by assumption)
        have h1k : (1 : ℚ) ≤ k := by exact_mod_cast hk1
        exact (div_le_div_iff_of_pos_right hn0).mpr h1k
    exact not_lt.mpr (le_trans hle hk)
  have hcut : ∀ k, sCut n fmin k = sQ n k := by
    intro k
    unfold sCut
    rw [if_neg (ne_of_gt hpos), if_pos (by unfold numBins; omega), hix, if_neg (by omega)]
  refine ⟨hcut, fun e sr si t => ?_⟩
  have hS : sScale n e fmin = sScale n e 0 := by
    funext k
    unfold sScale
    rw [hcut k, sCut_fmin_zero]
  simp only [output, irfftOut, specFull, specScaled, stdTheo, wSum, wMut, hS]

/-- Witness for C10 at `samples = 4`, `fmin = 1/4`. -/
theorem claimC10_witness :
    1 ≤ 4 ∧ 0 < (1 / 4 : ℚ) ∧ (1 / 4 : ℚ) ≤ 1 / (4 : ℕ) ∧
    ((∀ k, sCut 4 (1 / 4) k = sQ 4 k) ∧
    ∀ (e : ℝ) (sr si : ℕ → ℝ) (t : ℕ),
      output 4 e (1 / 4) sr si t = output 4 e 0 sr si t) :=
  ⟨by norm_num, by norm_num, by norm_num,
    claimC10_small_fmin 4 (1 / 4) (by norm_num) (by norm_num) (by norm_num)⟩

/-! ## Discrete Fourier orthogonality -/

theorem eKer_c_zero (n : ℕ) (t : ℕ) : eKer n 0 t = 1 := by
  simp [eKer]

theorem eKer_mul (n : ℕ) (c c' : ℤ) (t : ℕ) :
    eKer n c t * eKer n c' t = eKer n (c + c') t := by
  unfold eKer
  rw [← Complex.exp_add]
  congr 1
  push_cast
  ring

theorem eKer_conj (n : ℕ) (c : ℤ) (t : ℕ) :
    (starRingEnd ℂ) (eKer n c t) = eKer n (-c) t := by
  unfold eKer
  rw [← Complex.exp_conj]
  congr 1
  simp only [map_div₀, map_mul, Complex.conj_I, map_ofNat, Complex.conj_ofReal,
    map_intCast, map_natCast]
  push_cast
  ring

theorem eKer_pow (n : ℕ) (c : ℤ) (t : ℕ) :
    eKer n c t = Complex.exp (2 * (Real.pi : ℂ) * Complex.I * c / n) ^ t := by
  rw [← Complex.exp_nat_mul]
  unfold eKer
  congr 1
  ring

theorem eKer_base_pow_n {n : ℕ} (hn : 0 < n) (c : ℤ) :
    Complex.exp (2 * (Real.pi : ℂ) * Complex.I * c / n) ^ n = 1 := by
  rw [← Complex.exp_nat_mul]
  have hne : (n : ℂ) ≠ 0 := Nat.cast_ne_zero.mpr (by omega)
  rw [show (n : ℂ) * (2 * (Real.pi : ℂ) * Complex.I * c / n) =
      (c : ℂ) * (2 * (Real.pi : ℂ) * Complex.I) from by field_simp; ring]
  exact Complex.exp_int_mul_two_pi_mul_I c

theorem eKer_sum {n : ℕ} (hn : 0 < n) (c : ℤ) :
    ∑ t ∈ Finset.range n, eKer n c t = if (n : ℤ) ∣ c then (n : ℂ) else 0 := by
  have hne : (n : ℂ) ≠ 0 := Nat.cast_ne_zero.mpr (by omega)
  simp only [eKer_pow n c]
  by_cases hdvd : (n : ℤ) ∣ c
  · obtain ⟨m, hm⟩ := hdvd
    have h1 : Complex.exp (2 * (Real.pi : ℂ) * Complex.I * c / n) = 1 := by
      rw [hm]
      push_cast
      rw [show 2 * (Real.pi : ℂ) * Complex.I * ((n : ℂ) * (m : ℂ)) / (n : ℂ) =
          (m : ℂ) * (2 * (Real.pi : ℂ) * Complex.I) from by field_simp; ring]
      exact Complex.exp_int_mul_two_pi_mul_I m
    rw [if_pos ⟨m, hm⟩]
    simp [h1]
  · have h1 : Complex.exp (2 * (Real.pi : ℂ) * Complex.I * c / n) ≠ 1 := by
      rw [Ne, Complex.exp_eq_one_iff]
      push_neg
      intro m hm
      have hpi : (2 * (Real.pi : ℂ) * Complex.I) ≠ 0 := by
        simp [Real.pi_ne_zero, Complex.I_ne_zero, Complex.ofReal_ne_zero]
      have h2 : 2 * (Real.pi : ℂ) * Complex.I * c = 2 * (Real.pi : ℂ) * Complex.I * ((m : ℂ) * n) := by
        have h3 := congrArg (fun z => z * (n : ℂ)) hm
        simp only at h3
        rw [div_mul_cancel₀ _ hne] at h3
        rw [h3]
        ring
      have h4 : (c : ℂ) = ((m * n : ℤ) : ℂ) := by
        have := mul_left_cancel₀ hpi h2
        push_cast
        exact this
      have h5 : c = m * n := by exact_mod_cast h4
      exact hdvd ⟨m, by rw [h5]; ring⟩
    rw [geom_sum_eq h1, eKer_base_pow_n hn c, if_neg hdvd]
    simp

theorem mem_erase_range {n j : ℕ} (h : j ∈ (Finset.range n).erase 0) : 1 ≤ j ∧ j < n := by
  rcases Finset.mem_erase.mp h with ⟨h1, h2⟩
  exact ⟨Nat.one_le_iff_ne_zero.mpr h1, Finset.mem_range.mp h2⟩

theorem sum_ker_bilinear_same {n : ℕ} (hn : 0 < n) (a b : ℕ → ℂ) :
    ∑ t ∈ Finset.range n,
      ((∑ j ∈ (Finset.range n).erase 0, a j * eKer n j t) *
       (∑ j ∈ (Finset.range n).erase 0, b j * eKer n j t)) =
    (n : ℂ) * ∑ j ∈ (Finset.range n).erase 0, a j * b (n - j) := by
  have step1 : ∀ t : ℕ, (∑ j ∈ (Finset.range n).erase 0, a j * eKer n j t) *
      (∑ j ∈ (Finset.range n).erase 0, b j * eKer n j t) =
      ∑ j ∈ (Finset.range n).erase 0, ∑ j' ∈ (Finset.range n).erase 0,
        a j * b j' * eKer n ((j : ℤ) + (j' : ℤ)) t := by
    intro t
    rw [Finset.sum_mul_sum]
    refine Finset.sum_congr rfl fun j _ => Finset.sum_congr rfl fun j' _ => ?_
    rw [← eKer_mul]
    ring
  simp only [step1]
  calc ∑ t ∈ Finset.range n, ∑ j ∈ (Finset.range n).erase 0,
        ∑ j' ∈ (Finset.range n).erase 0, a j * b j' * eKer n ((j : ℤ) + (j' : ℤ)) t
      = ∑ j ∈ (Finset.range n).erase 0, ∑ j' ∈ (Finset.range n).erase 0,
          ∑ t ∈ Finset.range n, a j * b j' * eKer n ((j : ℤ) + (j' : ℤ)) t := by
        rw [Finset.sum_comm]
        exact Finset.sum_congr rfl fun j _ => Finset.sum_comm
    _ = ∑ j ∈ (Finset.range n).erase 0, ∑ j' ∈ (Finset.range n).erase 0,
          a j * b j' * (if (n : ℤ) ∣ ((j : ℤ) + (j' : ℤ)) then (n : ℂ) else 0) := by
        refine Finset.sum_congr rfl fun j _ => Finset.sum_congr rfl fun j' _ => ?_
        rw [← Finset.mul_sum, eKer_sum hn]
    _ = ∑ j ∈ (Finset.range n).erase 0, a j * b (n - j) * (n : ℂ) := by
        refine Finset.sum_congr rfl fun j hj => ?_
        obtain ⟨hj1, hjn⟩ := mem_erase_range hj
        rw [Finset.sum_eq_single (n - j)]
        · rw [if_pos ⟨1, by omega⟩]
        · intro j' hj' hne
          obtain ⟨hj'1, hj'n⟩ := mem_erase_range hj'
          rw [if_neg, mul_zero]
          rintro ⟨m, hm⟩
          have hjz : 1 ≤ (j : ℤ) ∧ (j : ℤ) ≤ (n : ℤ) - 1 := by omega
          have hj'z : 1 ≤ (j' : ℤ) ∧ (j' : ℤ) ≤ (n : ℤ) - 1 := by omega
          have hn' : (0 : ℤ) ≤ (n : ℤ) := by positivity
          have hpos : 0 < m := by
            by_contra hmle
            push_neg at hmle
            have h4 : (n : ℤ) * m ≤ (n : ℤ) * 0 := mul_le_mul_of_nonneg_left hmle hn'
            rw [mul_zero] at h4
            linarith [hjz.1, hj'z.1]
          have hmlt : m < 2 := by
            by_contra hge
            push_neg at hge
            have h4 : (n : ℤ) * 2 ≤ (n : ℤ) * m := mul_le_mul_of_nonneg_left hge hn'
            linarith [hjz.2, hj'z.2]
          have hm1 : m = 1 := by omega
          rw [hm1, mul_one] at hm
          exact hne (by omega)
        · intro hnotmem
          exact absurd (by rw [Finset.mem_erase, Finset.mem_range]; omega) hnotmem
    _ = (n : ℂ) * ∑ j ∈ (Finset.range n).erase 0, a j * b (n - j) := by
        rw [← Finset.sum_mul]
        ring

theorem sum_ker_bilinear_conj {n : ℕ} (hn : 0 < n) (a b : ℕ → ℂ) :
    ∑ t ∈ Finset.range n,
      ((∑ j ∈ (Finset.range n).erase 0, a j * eKer n j t) *
       (starRingEnd ℂ) (∑ j ∈ (Finset.range n).erase 0, b j * eKer n j t)) =
    (n : ℂ) * ∑ j ∈ (Finset.range n).erase 0, a j * (starRingEnd ℂ) (b j) := by
  have step1 : ∀ t : ℕ, (∑ j ∈ (Finset.range n).erase 0, a j * eKer n j t) *
      (starRingEnd ℂ) (∑ j ∈ (Finset.range n).erase 0, b j * eKer n j t) =
      ∑ j ∈ (Finset.range n).erase 0, ∑ j' ∈ (Finset.range n).erase 0,
        a j * (starRingEnd ℂ) (b j') * eKer n ((j : ℤ) - (j' : ℤ)) t := by
    intro t
    rw [map_sum, Finset.sum_mul_sum]
    refine Finset.sum_congr rfl fun j _ => Finset.sum_congr rfl fun j' _ => ?_
    rw [map_mul, eKer_conj, show ((j : ℤ) - (j' : ℤ)) = (j : ℤ) + (-(j' : ℤ)) from by ring,
      ← eKer_mul]
    ring
  simp only [step1]
  calc ∑ t ∈ Finset.range n, ∑ j ∈ (Finset.range n).erase 0,
        ∑ j' ∈ (Finset.range n).erase 0,
          a j * (starRingEnd ℂ) (b j') * eKer n ((j : ℤ) - (j' : ℤ)) t
      = ∑ j ∈ (Finset.range n).erase 0, ∑ j' ∈ (Finset.range n).erase 0,
          ∑ t ∈ Finset.range n, a j * (starRingEnd ℂ) (b j') * eKer n ((j : ℤ) - (j' : ℤ)) t := by
        rw [Finset.sum_comm]
        exact Finset.sum_congr rfl fun j _ => Finset.sum_comm
    _ = ∑ j ∈ (Finset.range n).erase 0, ∑ j' ∈ (Finset.range n).erase 0,
          a j * (starRingEnd ℂ) (b j') *
            (if (n : ℤ) ∣ ((j : ℤ) - (j' : ℤ)) then (n : ℂ) else 0) := by
        refine Finset.sum_congr rfl fun j _ => Finset.sum_congr rfl fun j' _ => ?_
        rw [← Finset.mul_sum, eKer_sum hn]
    _ = ∑ j ∈ (Finset.range n).erase 0, a j * (starRingEnd ℂ) (b j) * (n : ℂ) := by
        refine Finset.sum_congr rfl fun j hj => ?_
        obtain ⟨hj1, hjn⟩ := mem_erase_range hj
        rw [Finset.sum_eq_single j]
        · rw [if_pos ⟨0, by omega⟩]
        · intro j' hj' hne
          obtain ⟨hj'1, hj'n⟩ := mem_erase_range hj'
          rw [if_neg, mul_zero]
          rintro ⟨m, hm⟩
          have hjz : 1 ≤ (j : ℤ) ∧ (j : ℤ) ≤ (n : ℤ) - 1 := by omega
          have hj'z : 1 ≤ (j' : ℤ) ∧ (j' : ℤ) ≤ (n : ℤ) - 1 := by omega
          have hn' : (0 : ℤ) ≤ (n : ℤ) := by positivity
          have hm0 : m = 0 := by
            rcases lt_trichotomy m 0 with hmlt | hmeq | hmgt
            · exfalso
              have hle : m ≤ -1 := by omega
              have h4 : (n : ℤ) * m ≤ (n : ℤ) * (-1) := mul_le_mul_of_nonneg_left hle hn'
              linarith [hjz.1, hj'z.2]
            · exact hmeq
            · exfalso
              have hge : (1 : ℤ) ≤ m := by omega
              have h4 : (n : ℤ) * 1 ≤ (n : ℤ) * m := mul_le_mul_of_nonneg_left hge hn'
              linarith [hjz.2, hj'z.1]
          rw [hm0, mul_zero] at hm
          exact hne (by omega)
        · intro hnotmem
          exact absurd hj hnotmem
    _ = (n : ℂ) * ∑ j ∈ (Finset.range n).erase 0, a j * (starRingEnd ℂ) (b j) := by
        rw [← Finset.sum_mul]
        ring

/-! ## Hermitian symmetry of the reconstructed spectrum -/

theorem siAdj_dc (n : ℕ) (si : ℕ → ℝ) : siAdj n si 0 = 0 := by
  simp [siAdj]

theorem siAdj_nyq (n : ℕ) (si : ℕ → ℝ) (heven : n % 2 = 0) : siAdj n si (n / 2) = 0 := by
  unfold siAdj
  by_cases h : n / 2 = 0
  · rw [if_pos h]
  · rw [if_neg h, if_pos ⟨heven, rfl⟩]

theorem specScaled_conj_self {n : ℕ} {e : ℝ} {fmin : ℚ} {sr si : ℕ → ℝ} {k : ℕ}
    (h : siAdj n si k = 0) :
    (starRingEnd ℂ) (specScaled n e fmin sr si k) = specScaled n e fmin sr si k := by
  unfold specScaled specZ
  rw [h]
  simp [map_mul, map_add, Complex.conj_ofReal, Complex.conj_I]

theorem specFull_herm (n : ℕ) (e : ℝ) (fmin : ℚ) (sr si : ℕ → ℝ) (j : ℕ)
    (hj1 : 1 ≤ j) (hjn : j < n) :
    specFull n e fmin sr si (n - j) = (starRingEnd ℂ) (specFull n e fmin sr si j) := by
  unfold specFull
  by_cases hj : j ≤ n / 2
  · by_cases hnj : n - j ≤ n / 2
    · have heven : n % 2 = 0 := by omega
      have hjeq : j = n / 2 := by omega
      have hnjeq : n - j = n / 2 := by omega
      rw [if_pos hnj, if_pos hj, hjeq, show n - n / 2 = n / 2 from by omega]
      exact (specScaled_conj_self (siAdj_nyq n si heven)).symm
    · rw [if_neg hnj, if_pos hj, show n - (n - j) = j from by omega]
  · have hnj : n - j ≤ n / 2 := by omega
    rw [if_pos hnj, if_neg hj, Complex.conj_conj]

/-! ## Parseval identity for the sample variance -/

theorem re_sq_eq (z : ℂ) : z.re ^ 2 = (Complex.normSq z + (z * z).re) / 2 := by
  rw [Complex.normSq_apply, Complex.mul_re]
  ring

theorem inv_natCast_complex (n : ℕ) : ((n : ℂ))⁻¹ = (((n : ℝ)⁻¹ : ℝ) : ℂ) := by
  push_cast
  rfl

theorem sum_irfft {n : ℕ} (hn : 0 < n) (e : ℝ) (fmin : ℚ) (sr si : ℕ → ℝ) :
    ∑ t ∈ Finset.range n, irfftOut n e fmin sr si t = (specFull n e fmin sr si 0).re := by
  unfold irfftOut
  rw [← Complex.re_sum]
  congr 1
  calc ∑ t ∈ Finset.range n,
        ((n : ℂ))⁻¹ * ∑ j ∈ Finset.range n, specFull n e fmin sr si j * eKer n (j : ℤ) t
      = ((n : ℂ))⁻¹ * ∑ j ∈ Finset.range n,
          specFull n e fmin sr si j * ∑ t ∈ Finset.range n, eKer n (j : ℤ) t := by
        rw [← Finset.mul_sum, Finset.sum_comm]
        congr 1
        exact Finset.sum_congr rfl fun j _ => (Finset.mul_sum _ _ _).symm
    _ = ((n : ℂ))⁻¹ * (specFull n e fmin sr si 0 * (n : ℂ)) := by
        congr 1
        rw [Finset.sum_eq_single 0]
        · rw [eKer_sum hn, if_pos (by simp)]
        · intro j hj hne
          rw [eKer_sum hn, if_neg, mul_zero]
          rw [Int.natCast_dvd_natCast]
          intro hdvd
          exact hne (Nat.eq_zero_of_dvd_of_lt hdvd (Finset.mem_range.mp hj))
        · intro h0
          exact absurd (Finset.mem_range.mpr (by omega)) h0
    _ = specFull n e fmin sr si 0 := by
        have hne : (n : ℂ) ≠ 0 := Nat.cast_ne_zero.mpr (by omega)
        field_simp

theorem dev_eval {n : ℕ} (hn : 0 < n) (e : ℝ) (fmin : ℚ) (sr si : ℕ → ℝ) (t : ℕ) :
    irfftOut n e fmin sr si t - seqMean n (irfftOut n e fmin sr si) =
      (((n : ℂ))⁻¹ *
        ∑ j ∈ (Finset.range n).erase 0, specFull n e fmin sr si j * eKer n (j : ℤ) t).re := by
  have hmean : seqMean n (irfftOut n e fmin sr si) = (specFull n e fmin sr si 0).re / n := by
    unfold seqMean
    rw [sum_irfft hn e fmin sr si]
  rw [hmean]
  conv_lhs => rw [irfftOut, ← Finset.add_sum_erase _ _ (Finset.mem_range.mpr hn)]
  rw [Nat.cast_zero, eKer_c_zero, mul_one, mul_add, Complex.add_re]
  have h1 : (((n : ℂ))⁻¹ * specFull n e fmin sr si 0).re =
      (specFull n e fmin sr si 0).re / n := by
    rw [inv_natCast_complex, Complex.re_ofReal_mul]
    rw [inv_mul_eq_div]
  rw [h1]
  ring

theorem sumsq_dev {n : ℕ} (hn : 0 < n) (e : ℝ) (fmin : ℚ) (sr si : ℕ → ℝ) :
    ∑ t ∈ Finset.range n,
      (irfftOut n e fmin sr si t - seqMean n (irfftOut n e fmin sr si)) ^ 2 =
      (∑ j ∈ (Finset.range n).erase 0, Complex.normSq (specFull n e fmin sr si j)) / n := by
  simp only [dev_eval hn e fmin sr si]
  have hre : ∀ t : ℕ, (((n : ℂ))⁻¹ *
      ∑ j ∈ (Finset.range n).erase 0, specFull n e fmin sr si j * eKer n (j : ℤ) t).re
      = (n : ℝ)⁻¹ *
        (∑ j ∈ (Finset.range n).erase 0, specFull n e fmin sr si j * eKer n (j : ℤ) t).re := by
    intro t
    rw [inv_natCast_complex, Complex.re_ofReal_mul]
  simp only [hre, mul_pow]
  rw [← Finset.mul_sum]
  have hMc : ∑ j ∈ (Finset.range n).erase 0,
      specFull n e fmin sr si j * (starRingEnd ℂ) (specFull n e fmin sr si j) =
      ((∑ j ∈ (Finset.range n).erase 0, Complex.normSq (specFull n e fmin sr si j) : ℝ) : ℂ) := by
    rw [Complex.ofReal_sum]
    exact Finset.sum_congr rfl fun j _ => Complex.mul_conj _
  have hconj : ∑ t ∈ Finset.range n,
      Complex.normSq (∑ j ∈ (Finset.range n).erase 0,
        specFull n e fmin sr si j * eKer n (j : ℤ) t) =
      n * ∑ j ∈ (Finset.range n).erase 0, Complex.normSq (specFull n e fmin sr si j) := by
    have h1 := sum_ker_bilinear_conj hn (fun j => specFull n e fmin sr si j)
      (fun j => specFull n e fmin sr si j)
    have h2 := congrArg Complex.re h1
    rw [Complex.re_sum] at h2
    calc ∑ t ∈ Finset.range n,
          Complex.normSq (∑ j ∈ (Finset.range n).erase 0,
            specFull n e fmin sr si j * eKer n (j : ℤ) t)
        = ∑ t ∈ Finset.range n,
            ((∑ j ∈ (Finset.range n).erase 0, specFull n e fmin sr si j * eKer n (j : ℤ) t) *
             (starRingEnd ℂ) (∑ j ∈ (Finset.range n).erase 0,
               specFull n e fmin sr si j * eKer n (j : ℤ) t)).re := by
          refine Finset.sum_congr rfl fun t _ => ?_
          rw [Complex.mul_conj, Complex.ofReal_re]
      _ = (((n : ℂ)) * ∑ j ∈ (Finset.range n).erase 0,
            specFull n e fmin sr si j * (starRingEnd ℂ) (specFull n e fmin sr si j)).re := h2
      _ = n * ∑ j ∈ (Finset.range n).erase 0, Complex.normSq (specFull n e fmin sr si j) := by
          rw [hMc, ← Complex.ofReal_natCast, ← Complex.ofReal_mul, Complex.ofReal_re]
  have hsq : ∑ t ∈ Finset.range n,
      ((∑ j ∈ (Finset.range n).erase 0, specFull n e fmin sr si j * eKer n (j : ℤ) t) *
       (∑ j ∈ (Finset.range n).erase 0, specFull n e fmin sr si j * eKer n (j : ℤ) t)).re =
      n * ∑ j ∈ (Finset.range n).erase 0, Complex.normSq (specFull n e fmin sr si j) := by
    have h1 := sum_ker_bilinear_same hn (fun j => specFull n e fmin sr si j)
      (fun j => specFull n e fmin sr si j)
    have h3 : ∑ j ∈ (Finset.range n).erase 0,
        specFull n e fmin sr si j * specFull n e fmin sr si (n - j) =
        ∑ j ∈ (Finset.range n).erase 0,
          specFull n e fmin sr si j * (starRingEnd ℂ) (specFull n e fmin sr si j) := by
      refine Finset.sum_congr rfl fun j hj => ?_
      obtain ⟨hj1, hjn⟩ := mem_erase_range hj
      rw [specFull_herm n e fmin sr si j hj1 hjn]
    rw [h3] at h1
    have h2 := congrArg Complex.re h1
    rw [Complex.re_sum] at h2
    rw [h2, hMc, ← Complex.ofReal_natCast, ← Complex.ofReal_mul, Complex.ofReal_re]
  calc (n : ℝ)⁻¹ ^ 2 * ∑ t ∈ Finset.range n,
        ((∑ j ∈ (Finset.range n).erase 0, specFull n e fmin sr si j * eKer n (j : ℤ) t).re) ^ 2
      = (n : ℝ)⁻¹ ^ 2 * ∑ t ∈ Finset.range n,
          ((Complex.normSq (∑ j ∈ (Finset.range n).erase 0,
              specFull n e fmin sr si j * eKer n (j : ℤ) t) +
            ((∑ j ∈ (Finset.range n).erase 0, specFull n e fmin sr si j * eKer n (j : ℤ) t) *
             (∑ j ∈ (Finset.range n).erase 0,
               specFull n e fmin sr si j * eKer n (j : ℤ) t)).re) / 2) := by
        congr 1
        exact Finset.sum_congr rfl fun t _ => re_sq_eq _
    _ = (n : ℝ)⁻¹ ^ 2 * ((n * ∑ j ∈ (Finset.range n).erase 0,
          Complex.normSq (specFull n e fmin sr si j) +
          n * ∑ j ∈ (Finset.range n).erase 0,
            Complex.normSq (specFull n e fmin sr si j)) / 2) := by
        rw [← Finset.sum_div, Finset.sum_add_distrib, hconj, hsq]
    _ = (∑ j ∈ (Finset.range n).erase 0, Complex.normSq (specFull n e fmin sr si j)) / n := by
        have hne : (n : ℝ) ≠ 0 := Nat.cast_ne_zero.mpr (by omega)
        field_simp
        ring

theorem seqVar_irfft {n : ℕ} (hn : 0 < n) (e : ℝ) (fmin : ℚ) (sr si : ℕ → ℝ) :
    seqVar n (irfftOut n e fmin sr si) =
      (∑ j ∈ (Finset.range n).erase 0, Complex.normSq (specFull n e fmin sr si j)) /
        (n : ℝ) ^ 2 := by
  unfold seqVar
  rw [sumsq_dev hn e fmin sr si, div_div]
  congr 1
  ring

/-! ## Folding the full spectrum onto the one-sided bins -/

theorem normSq_specScaled (n : ℕ) (e : ℝ) (fmin : ℚ) (sr si : ℕ → ℝ) (k : ℕ) :
    Complex.normSq (specScaled n e fmin sr si k) = binPower n e fmin sr si k := by
  unfold specScaled specZ binPower
  rw [Complex.normSq_mul, Complex.normSq_ofReal, Complex.normSq_add_mul_I]
  ring

theorem normSq_specFull_binPower (n : ℕ) (e : ℝ) (fmin : ℚ) (sr si : ℕ → ℝ) (j : ℕ) :
    Complex.normSq (specFull n e fmin sr si j) = binPower n e fmin sr si (binIdx n j) := by
  unfold specFull binIdx
  split
  · exact normSq_specScaled n e fmin sr si j
  · rw [Complex.normSq_conj]
    exact normSq_specScaled n e fmin sr si (n - j)

theorem binIdx_bounds {n j : ℕ} (hj1 : 1 ≤ j) (hjn : j < n) :
    1 ≤ binIdx n j ∧ binIdx n j ≤ n / 2 := by
  unfold binIdx
  split
  · omega
  · omega

theorem fold_mirror {n : ℕ} (hn : 2 ≤ n) (g : ℕ → ℝ) :
    ∑ j ∈ (Finset.range n).erase 0, g (binIdx n j) =
      ∑ k ∈ Finset.Ico 1 (n / 2 + 1), g k + ∑ k ∈ Finset.Ico 1 (n - n / 2), g k := by
  have h1 : (Finset.range n).erase 0 = Finset.Ico 1 n := by
    ext x
    rw [Finset.mem_erase, Finset.mem_range, Finset.mem_Ico]
    omega
  rw [h1, ← Finset.sum_Ico_consecutive (fun j => g (binIdx n j))
    (show 1 ≤ n / 2 + 1 by omega) (show n / 2 + 1 ≤ n by omega)]
  congr 1
  · refine Finset.sum_congr rfl fun j hj => ?_
    have := Finset.mem_Ico.mp hj
    unfold binIdx
    rw [if_pos (by omega)]
  · refine Finset.sum_nbij' (fun j => n - j) (fun k => n - k) ?_ ?_ ?_ ?_ ?_
    · intro j hj
      simp only [Finset.mem_Ico] at hj ⊢
      omega
    · intro k hk
      simp only [Finset.mem_Ico] at hk ⊢
      omega
    · intro j hj
      simp only [Finset.mem_Ico] at hj
      simp only []
      omega
    · intro k hk
      simp only [Finset.mem_Ico] at hk
      simp only []
      omega
    · intro j hj
      simp only [Finset.mem_Ico] at hj
      unfold binIdx
      rw [if_neg (by omega)]

theorem nyqFactor_cast_even {n : ℕ} (heven : n % 2 = 0) : ((nyqFactor n : ℚ) : ℝ) = 1 / 2 := by
  unfold nyqFactor
  rw [heven]
  norm_num

theorem nyqFactor_cast_odd {n : ℕ} (hodd : n % 2 = 1) : ((nyqFactor n : ℚ) : ℝ) = 1 := by
  unfold nyqFactor
  rw [hodd]
  norm_num

theorem wSum_Ico (n : ℕ) (e : ℝ) (fmin : ℚ) :
    wSum n e fmin = ∑ k ∈ Finset.Ico 1 (n / 2 + 1),
      ((if k = n / 2 then ((nyqFactor n : ℚ) : ℝ) else 1) * sScale n e fmin k) ^ 2 := by
  unfold wSum numBins
  rw [Finset.range_eq_Ico, @Finset.sum_eq_sum_Ico_succ_bot ℝ _ 0 (n / 2 + 1)
    (by omega) (fun k => wMut n e fmin k ^ 2)]
  have h0 : wMut n e fmin 0 ^ 2 = 0 := by simp [wMut]
  rw [h0, zero_add]
  refine Finset.sum_congr rfl fun k hk => ?_
  have hk1 : 1 ≤ k := (Finset.mem_Ico.mp hk).1
  unfold wMut
  rw [if_neg (by omega)]
  ring

theorem sum_dof_eq_four_wSum {n : ℕ} (hn : 2 ≤ n) (e : ℝ) (fmin : ℚ) :
    ∑ j ∈ (Finset.range n).erase 0,
      sScale n e fmin (binIdx n j) ^ 2 * (1 + dofNy n (binIdx n j)) =
      4 * wSum n e fmin := by
  rw [fold_mirror hn (fun k => sScale n e fmin k ^ 2 * (1 + dofNy n k)), wSum_Ico]
  rcases Nat.mod_two_eq_zero_or_one n with heven | hodd
  · -- even: the mirrored half misses the Nyquist bin, which the direct
    -- half counts once with one degree of freedom
    have hm1 : 1 ≤ n / 2 := by omega
    have hsplit : ∑ k ∈ Finset.Ico 1 (n / 2 + 1),
        sScale n e fmin k ^ 2 * (1 + dofNy n k) =
        (∑ k ∈ Finset.Ico 1 (n / 2), sScale n e fmin k ^ 2 * (1 + dofNy n k)) +
          sScale n e fmin (n / 2) ^ 2 * (1 + dofNy n (n / 2)) :=
      Finset.sum_Ico_succ_top hm1 _
    have hnn : n - n / 2 = n / 2 := by omega
    have hdofNyq : dofNy n (n / 2) = 0 := by
      unfold dofNy
      rw [if_pos ⟨heven, rfl⟩]
    have hdofMid : ∀ k ∈ Finset.Ico 1 (n / 2),
        sScale n e fmin k ^ 2 * (1 + dofNy n k) = 2 * sScale n e fmin k ^ 2 := by
      intro k hk
      have := Finset.mem_Ico.mp hk
      unfold dofNy
      rw [if_neg (by omega)]
      ring
    have hwsplit : ∑ k ∈ Finset.Ico 1 (n / 2 + 1),
        ((if k = n / 2 then ((nyqFactor n : ℚ) : ℝ) else 1) * sScale n e fmin k) ^ 2 =
        (∑ k ∈ Finset.Ico 1 (n / 2),
          ((if k = n / 2 then ((nyqFactor n : ℚ) : ℝ) else 1) * sScale n e fmin k) ^ 2) +
          ((if n / 2 = n / 2 then ((nyqFactor n : ℚ) : ℝ) else 1) * sScale n e fmin (n / 2)) ^ 2 :=
      Finset.sum_Ico_succ_top hm1 _
    have hwmid : ∀ k ∈ Finset.Ico 1 (n / 2),
        ((if k = n / 2 then ((nyqFactor n : ℚ) : ℝ) else 1) * sScale n e fmin k) ^ 2 =
        sScale n e fmin k ^ 2 := by
      intro k hk
      have := Finset.mem_Ico.mp hk
      rw [if_neg (by omega)]
      ring
    rw [hsplit, hnn, hwsplit, Finset.sum_congr rfl hdofMid, Finset.sum_congr rfl hwmid,
      hdofNyq, if_pos rfl, nyqFactor_cast_even heven,
      show ∑ x ∈ Finset.Ico 1 (n / 2), 2 * sScale n e fmin x ^ 2 =
        2 * ∑ x ∈ Finset.Ico 1 (n / 2), sScale n e fmin x ^ 2 from (Finset.mul_sum _ _ _).symm]
    ring
  · -- odd: both halves run over all bins 1 .. n/2, each with two degrees
    -- of freedom, and the Nyquist factor is 1
    have hnn : n - n / 2 = n / 2 + 1 := by omega
    have hdof : ∀ k ∈ Finset.Ico 1 (n / 2 + 1),
        sScale n e fmin k ^ 2 * (1 + dofNy n k) = 2 * sScale n e fmin k ^ 2 := by
      intro k hk
      unfold dofNy
      rw [if_neg (by omega)]
      ring
    have hw : ∀ k ∈ Finset.Ico 1 (n / 2 + 1),
        ((if k = n / 2 then ((nyqFactor n : ℚ) : ℝ) else 1) * sScale n e fmin k) ^ 2 =
        sScale n e fmin k ^ 2 := by
      intro k _
      rcases eq_or_ne k (n / 2) with hkk | hkk
      · rw [if_pos hkk, nyqFactor_cast_odd hodd]
        ring
      · rw [if_neg hkk]
        ring
    rw [hnn, Finset.sum_congr rfl hdof, Finset.sum_congr rfl hw, ← Finset.sum_add_distrib]
    rw [Finset.mul_sum]
    refine Finset.sum_congr rfl fun k _ => ?_
    ring

/-! ## Second moment of the standard Gaussian -/

theorem hasDerivAt_neg_exp_half_sq (x : ℝ) :
    HasDerivAt (fun y : ℝ => -Real.exp (-(2⁻¹ : ℝ) * y ^ 2))
      (x * Real.exp (-(2⁻¹ : ℝ) * x ^ 2)) x := by
  have h1 : HasDerivAt (fun y : ℝ => -(2⁻¹ : ℝ) * y ^ 2) (-(2⁻¹ : ℝ) * (2 * x ^ 1)) x :=
    (hasDerivAt_pow 2 x).const_mul _
  have h2 := (h1.exp).neg
  convert h2 using 1
  ring

theorem tendsto_mul_exp_half_sq_atTop :
    Filter.Tendsto (fun x : ℝ => x * Real.exp (-(2⁻¹ : ℝ) * x ^ 2))
      Filter.atTop (nhds 0) := by
  have h1 : (fun x : ℝ => x ^ (1 : ℝ) * Real.exp (-(2⁻¹ : ℝ) * x ^ 2)) =o[Filter.atTop]
      fun x : ℝ => Real.exp (-(1 / 2 : ℝ) * x) :=
    rpow_mul_exp_neg_mul_sq_isLittleO_exp_neg (by norm_num) 1
  have h2 : Filter.Tendsto (fun x : ℝ => Real.exp (-(1 / 2 : ℝ) * x))
      Filter.atTop (nhds 0) := by
    have ha : Filter.Tendsto (fun x : ℝ => -(1 / 2 : ℝ) * x) Filter.atTop Filter.atBot := by
      have hb : Filter.Tendsto (fun x : ℝ => x * (1 / 2 : ℝ)) Filter.atTop Filter.atTop :=
        Filter.Tendsto.atTop_mul_const (by norm_num) Filter.tendsto_id
      have hc := Filter.tendsto_neg_atTop_atBot.comp hb
      refine hc.congr fun x => ?_
      simp only [Function.comp_apply]
      ring
    exact Real.tendsto_exp_atBot.comp ha
  have h3 := h1.trans_tendsto h2
  refine h3.congr fun x => ?_
  rw [Real.rpow_one]

theorem tendsto_mul_exp_half_sq_atBot :
    Filter.Tendsto (fun x : ℝ => x * Real.exp (-(2⁻¹ : ℝ) * x ^ 2))
      Filter.atBot (nhds 0) := by
  have h1 := (tendsto_mul_exp_half_sq_atTop.comp Filter.tendsto_neg_atBot_atTop).neg
  rw [neg_zero] at h1
  refine h1.congr fun x => ?_
  simp only [Function.comp_apply, neg_sq]
  ring

theorem integral_sq_exp_half :
    ∫ x : ℝ, x ^ 2 * Real.exp (-(2⁻¹ : ℝ) * x ^ 2) = Real.sqrt (2 * Real.pi) := by
  have hu : ∀ x : ℝ, HasDerivAt (fun y : ℝ => y) 1 x := fun x => hasDerivAt_id x
  have hv := hasDerivAt_neg_exp_half_sq
  have huv' : MeasureTheory.Integrable
      ((fun y : ℝ => y) * fun y : ℝ => y * Real.exp (-(2⁻¹ : ℝ) * y ^ 2)) := by
    have hbase := integrable_rpow_mul_exp_neg_mul_sq
      (show (0 : ℝ) < 2⁻¹ by norm_num) (show (-1 : ℝ) < 2 by norm_num)
    refine hbase.congr (Filter.Eventually.of_forall fun x => ?_)
    simp only [Pi.mul_apply, Real.rpow_two]
    ring
  have hu'v : MeasureTheory.Integrable
      ((fun _ : ℝ => (1 : ℝ)) * fun y : ℝ => -Real.exp (-(2⁻¹ : ℝ) * y ^ 2)) := by
    have hbase := (integrable_exp_neg_mul_sq (show (0 : ℝ) < 2⁻¹ by norm_num)).neg
    refine hbase.congr (Filter.Eventually.of_forall fun x => ?_)
    simp only [Pi.mul_apply, Pi.neg_apply]
    norm_num
  have hbot : Filter.Tendsto ((fun y : ℝ => y) * fun y : ℝ => -Real.exp (-(2⁻¹ : ℝ) * y ^ 2))
      Filter.atBot (nhds 0) := by
    have := tendsto_mul_exp_half_sq_atBot.neg
    rw [neg_zero] at this
    refine this.congr fun x => ?_
    simp only [Pi.mul_apply]
    ring
  have htop : Filter.Tendsto ((fun y : ℝ => y) * fun y : ℝ => -Real.exp (-(2⁻¹ : ℝ) * y ^ 2))
      Filter.atTop (nhds 0) := by
    have := tendsto_mul_exp_half_sq_atTop.neg
    rw [neg_zero] at this
    refine this.congr fun x => ?_
    simp only [Pi.mul_apply]
    ring
  have key := MeasureTheory.integral_mul_deriv_eq_deriv_mul hu hv huv' hu'v hbot htop
  calc ∫ x : ℝ, x ^ 2 * Real.exp (-(2⁻¹ : ℝ) * x ^ 2)
      = ∫ x : ℝ, x * (x * Real.exp (-(2⁻¹ : ℝ) * x ^ 2)) := by
        refine MeasureTheory.integral_congr_ae (Filter.Eventually.of_forall fun x => ?_)
        ring
    _ = 0 - 0 - ∫ x : ℝ, 1 * -Real.exp (-(2⁻¹ : ℝ) * x ^ 2) := key
    _ = ∫ x : ℝ, Real.exp (-(2⁻¹ : ℝ) * x ^ 2) := by
        rw [show (fun x : ℝ => 1 * -Real.exp (-(2⁻¹ : ℝ) * x ^ 2)) =
            fun x : ℝ => -Real.exp (-(2⁻¹ : ℝ) * x ^ 2) from funext fun x => by ring]
        rw [MeasureTheory.integral_neg]
        ring
    _ = Real.sqrt (Real.pi / 2⁻¹) := integral_gaussian 2⁻¹
    _ = Real.sqrt (2 * Real.pi) := by
        rw [show Real.pi / (2⁻¹ : ℝ) = 2 * Real.pi from by field_simp; ring]

theorem gaussianPDFReal_std (x : ℝ) :
    ProbabilityTheory.gaussianPDFReal 0 1 x =
      (Real.sqrt (2 * Real.pi))⁻¹ * Real.exp (-(2⁻¹ : ℝ) * x ^ 2) := by
  rw [ProbabilityTheory.gaussianPDFReal]
  norm_num
  left
  ring

theorem gauss_eq_withDensity :
    gauss = MeasureTheory.volume.withDensity
      (fun x => ((ProbabilityTheory.gaussianPDFReal 0 1 x).toNNReal : ENNReal)) := by
  unfold gauss
  rw [ProbabilityTheory.gaussianReal_of_var_ne_zero 0 one_ne_zero]
  rfl

theorem gauss_integral_sq : ∫ x : ℝ, x ^ 2 ∂gauss = 1 := by
  rw [gauss_eq_withDensity]
  rw [integral_withDensity_eq_integral_smul
    ((ProbabilityTheory.measurable_gaussianPDFReal 0 1).real_toNNReal) (fun x : ℝ => x ^ 2)]
  have hpt : ∀ x : ℝ, (ProbabilityTheory.gaussianPDFReal 0 1 x).toNNReal • x ^ 2 =
      (Real.sqrt (2 * Real.pi))⁻¹ * (x ^ 2 * Real.exp (-(2⁻¹ : ℝ) * x ^ 2)) := by
    intro x
    rw [NNReal.smul_def, Real.coe_toNNReal _ (ProbabilityTheory.gaussianPDFReal_nonneg 0 1 x),
      gaussianPDFReal_std, smul_eq_mul]
    ring
  rw [MeasureTheory.integral_congr_ae (Filter.Eventually.of_forall hpt)]
  rw [MeasureTheory.integral_mul_left, integral_sq_exp_half]
  have hpos : 0 < Real.sqrt (2 * Real.pi) := Real.sqrt_pos.mpr (by positivity)
  field_simp

theorem gauss_integrable_sq : MeasureTheory.Integrable (fun x : ℝ => x ^ 2) gauss := by
  rw [gauss_eq_withDensity]
  rw [MeasureTheory.integrable_withDensity_iff_integrable_smul
    ((ProbabilityTheory.measurable_gaussianPDFReal 0 1).real_toNNReal)]
  have hbase := (integrable_rpow_mul_exp_neg_mul_sq
    (show (0 : ℝ) < 2⁻¹ by norm_num) (show (-1 : ℝ) < 2 by norm_num)).const_mul
    ((Real.sqrt (2 * Real.pi))⁻¹)
  refine hbase.congr (Filter.Eventually.of_forall fun x => ?_)
  show (Real.sqrt (2 * Real.pi))⁻¹ * (x ^ (2 : ℝ) * Real.exp (-(2⁻¹ : ℝ) * x ^ 2)) =
    (ProbabilityTheory.gaussianPDFReal 0 1 x).toNNReal • x ^ 2
  rw [NNReal.smul_def, Real.coe_toNNReal _ (ProbabilityTheory.gaussianPDFReal_nonneg 0 1 x),
    gaussianPDFReal_std, Real.rpow_two, smul_eq_mul]
  ring

/-! ## Coordinate marginals of the draw law -/

theorem gaussPi_map_eval (n : ℕ) (k : Fin (numBins n)) :
    (gaussPi n).map (fun v => v k) = gauss := by
  refine MeasureTheory.Measure.ext fun s hs => ?_
  rw [MeasureTheory.Measure.map_apply (measurable_pi_apply k) hs]
  have hpre : Set.preimage (fun v : Fin (numBins n) → ℝ => v k) s =
      Set.univ.pi (Function.update (fun _ : Fin (numBins n) => (Set.univ : Set ℝ)) k s) := by
    ext v
    simp only [Set.mem_preimage, Set.mem_univ_pi]
    constructor
    · intro hv i
      rcases eq_or_ne i k with rfl | hik
      · rw [Function.update_same]
        exact hv
      · rw [Function.update_noteq hik]
        trivial
    · intro hv
      have := hv k
      rwa [Function.update_same] at this
  rw [hpre]
  unfold gaussPi
  rw [MeasureTheory.Measure.pi_pi]
  have hterm : ∀ i : Fin (numBins n),
      gauss (Function.update (fun _ : Fin (numBins n) => (Set.univ : Set ℝ)) k s i) =
      Function.update (fun _ : Fin (numBins n) => gauss Set.univ) k (gauss s) i :=
    fun i => (Function.apply_update (fun _ t => gauss t)
      (fun _ : Fin (numBins n) => (Set.univ : Set ℝ)) k s i)
  rw [Finset.prod_congr rfl fun i _ => hterm i,
    Finset.prod_update_of_mem (Finset.mem_univ k)]
  simp [MeasureTheory.measure_univ]

theorem gaussDraws_map_fst_eval (n : ℕ) (k : Fin (numBins n)) :
    (gaussDraws n).map (fun ω : (Fin (numBins n) → ℝ) × (Fin (numBins n) → ℝ) => ω.1 k) =
      gauss := by
  have h1 : (gaussDraws n).map Prod.fst = gaussPi n := by
    unfold gaussDraws
    rw [MeasureTheory.Measure.map_fst_prod]
    simp [MeasureTheory.measure_univ]
  rw [show (fun ω : (Fin (numBins n) → ℝ) × (Fin (numBins n) → ℝ) => ω.1 k) =
      (fun v : Fin (numBins n) → ℝ => v k) ∘ Prod.fst from rfl]
  rw [← MeasureTheory.Measure.map_map (measurable_pi_apply k) measurable_fst, h1,
    gaussPi_map_eval]

theorem gaussDraws_map_snd_eval (n : ℕ) (k : Fin (numBins n)) :
    (gaussDraws n).map (fun ω : (Fin (numBins n) → ℝ) × (Fin (numBins n) → ℝ) => ω.2 k) =
      gauss := by
  have h1 : (gaussDraws n).map Prod.snd = gaussPi n := by
    unfold gaussDraws
    rw [MeasureTheory.Measure.map_snd_prod]
    simp [MeasureTheory.measure_univ]
  rw [show (fun ω : (Fin (numBins n) → ℝ) × (Fin (numBins n) → ℝ) => ω.2 k) =
      (fun v : Fin (numBins n) → ℝ => v k) ∘ Prod.snd from rfl]
  rw [← MeasureTheory.Measure.map_map (measurable_pi_apply k) measurable_snd, h1,
    gaussPi_map_eval]

theorem integral_sq_fst (n : ℕ) (k : Fin (numBins n)) :
    ∫ ω, (ω.1 k) ^ 2 ∂gaussDraws n = 1 := by
  have hφ : Measurable
      (fun ω : (Fin (numBins n) → ℝ) × (Fin (numBins n) → ℝ) => ω.1 k) :=
    (measurable_pi_apply k).comp measurable_fst
  have hg : MeasureTheory.AEStronglyMeasurable (fun x : ℝ => x ^ 2)
      ((gaussDraws n).map (fun ω : (Fin (numBins n) → ℝ) × (Fin (numBins n) → ℝ) => ω.1 k)) :=
    (continuous_pow 2).aestronglyMeasurable
  have h2 := MeasureTheory.integral_map hφ.aemeasurable hg
  rw [gaussDraws_map_fst_eval n k] at h2
  rw [← h2, gauss_integral_sq]

theorem integral_sq_snd (n : ℕ) (k : Fin (numBins n)) :
    ∫ ω, (ω.2 k) ^ 2 ∂gaussDraws n = 1 := by
  have hφ : Measurable
      (fun ω : (Fin (numBins n) → ℝ) × (Fin (numBins n) → ℝ) => ω.2 k) :=
    (measurable_pi_apply k).comp measurable_snd
  have hg : MeasureTheory.AEStronglyMeasurable (fun x : ℝ => x ^ 2)
      ((gaussDraws n).map (fun ω : (Fin (numBins n) → ℝ) × (Fin (numBins n) → ℝ) => ω.2 k)) :=
    (continuous_pow 2).aestronglyMeasurable
  have h2 := MeasureTheory.integral_map hφ.aemeasurable hg
  rw [gaussDraws_map_snd_eval n k] at h2
  rw [← h2, gauss_integral_sq]

theorem integrable_sq_fst (n : ℕ) (k : Fin (numBins n)) :
    MeasureTheory.Integrable (fun ω : (Fin (numBins n) → ℝ) × (Fin (numBins n) → ℝ) =>
      (ω.1 k) ^ 2) (gaussDraws n) := by
  have hφ : Measurable
      (fun ω : (Fin (numBins n) → ℝ) × (Fin (numBins n) → ℝ) => ω.1 k) :=
    (measurable_pi_apply k).comp measurable_fst
  have hg : MeasureTheory.AEStronglyMeasurable (fun x : ℝ => x ^ 2)
      ((gaussDraws n).map (fun ω : (Fin (numBins n) → ℝ) × (Fin (numBins n) → ℝ) => ω.1 k)) :=
    (continuous_pow 2).aestronglyMeasurable
  have h3 : MeasureTheory.Integrable (fun x : ℝ => x ^ 2)
      ((gaussDraws n).map (fun ω : (Fin (numBins n) → ℝ) × (Fin (numBins n) → ℝ) => ω.1 k)) := by
    rw [gaussDraws_map_fst_eval n k]
    exact gauss_integrable_sq
  exact (MeasureTheory.integrable_map_measure hg hφ.aemeasurable).mp h3

theorem integrable_sq_snd (n : ℕ) (k : Fin (numBins n)) :
    MeasureTheory.Integrable (fun ω : (Fin (numBins n) → ℝ) × (Fin (numBins n) → ℝ) =>
      (ω.2 k) ^ 2) (gaussDraws n) := by
  have hφ : Measurable
      (fun ω : (Fin (numBins n) → ℝ) × (Fin (numBins n) → ℝ) => ω.2 k) :=
    (measurable_pi_apply k).comp measurable_snd
  have hg : MeasureTheory.AEStronglyMeasurable (fun x : ℝ => x ^ 2)
      ((gaussDraws n).map (fun ω : (Fin (numBins n) → ℝ) × (Fin (numBins n) → ℝ) => ω.2 k)) :=
    (continuous_pow 2).aestronglyMeasurable
  have h3 : MeasureTheory.Integrable (fun x : ℝ => x ^ 2)
      ((gaussDraws n).map (fun ω : (Fin (numBins n) → ℝ) × (Fin (numBins n) → ℝ) => ω.2 k)) := by
    rw [gaussDraws_map_snd_eval n k]
    exact gauss_integrable_sq
  exact (MeasureTheory.integrable_map_measure hg hφ.aemeasurable).mp h3

/-! ## Expected per-bin power and the unit-variance theorem -/

theorem extDraw_lt {n : ℕ} (v : Fin (numBins n) → ℝ) {k : ℕ} (hk : k < numBins n) :
    extDraw v k = v ⟨k, hk⟩ := dif_pos hk

theorem integral_binPower {n : ℕ} (e : ℝ) (fmin : ℚ) {k : ℕ} (hk1 : 1 ≤ k)
    (hk : k < numBins n) :
    ∫ ω, binPower n e fmin (extDraw ω.1) (extDraw ω.2) k ∂gaussDraws n =
      sScale n e fmin k ^ 2 * (1 + dofNy n k) := by
  unfold binPower
  by_cases hforce : n % 2 = 0 ∧ k = n / 2
  · have hpt : ∀ ω : (Fin (numBins n) → ℝ) × (Fin (numBins n) → ℝ),
        sScale n e fmin k ^ 2 * ((extDraw ω.1 k) ^ 2 + (siAdj n (extDraw ω.2) k) ^ 2) =
        sScale n e fmin k ^ 2 * (ω.1 ⟨k, hk⟩) ^ 2 := by
      intro ω
      rw [extDraw_lt ω.1 hk]
      unfold siAdj
      rw [if_neg (by omega), if_pos hforce]
      ring
    rw [MeasureTheory.integral_congr_ae (Filter.Eventually.of_forall hpt),
      MeasureTheory.integral_mul_left, integral_sq_fst n ⟨k, hk⟩]
    unfold dofNy
    rw [if_pos hforce]
    ring
  · have hpt : ∀ ω : (Fin (numBins n) → ℝ) × (Fin (numBins n) → ℝ),
        sScale n e fmin k ^ 2 * ((extDraw ω.1 k) ^ 2 + (siAdj n (extDraw ω.2) k) ^ 2) =
        sScale n e fmin k ^ 2 * ((ω.1 ⟨k, hk⟩) ^ 2 + (ω.2 ⟨k, hk⟩) ^ 2) := by
      intro ω
      rw [extDraw_lt ω.1 hk]
      unfold siAdj
      rw [if_neg (by omega), if_neg hforce, extDraw_lt ω.2 hk]
    rw [MeasureTheory.integral_congr_ae (Filter.Eventually.of_forall hpt),
      MeasureTheory.integral_mul_left,
      MeasureTheory.integral_add (integrable_sq_fst n ⟨k, hk⟩) (integrable_sq_snd n ⟨k, hk⟩),
      integral_sq_fst n ⟨k, hk⟩, integral_sq_snd n ⟨k, hk⟩]
    unfold dofNy
    rw [if_neg hforce]

theorem integrable_binPower {n : ℕ} (e : ℝ) (fmin : ℚ) {k : ℕ} (hk1 : 1 ≤ k)
    (hk : k < numBins n) :
    MeasureTheory.Integrable
      (fun ω : (Fin (numBins n) → ℝ) × (Fin (numBins n) → ℝ) =>
        binPower n e fmin (extDraw ω.1) (extDraw ω.2) k) (gaussDraws n) := by
  unfold binPower
  by_cases hforce : n % 2 = 0 ∧ k = n / 2
  · refine (((integrable_sq_fst n ⟨k, hk⟩).const_mul (sScale n e fmin k ^ 2)).congr
      (Filter.Eventually.of_forall fun ω => ?_))
    simp only [Pi.add_apply]
    rw [extDraw_lt ω.1 hk]
    unfold siAdj
    rw [if_neg (by omega), if_pos hforce]
    ring
  · refine ((((integrable_sq_fst n ⟨k, hk⟩).add (integrable_sq_snd n ⟨k, hk⟩)).const_mul
      (sScale n e fmin k ^ 2)).congr (Filter.Eventually.of_forall fun ω => ?_))
    simp only [Pi.add_apply]
    rw [extDraw_lt ω.1 hk]
    unfold siAdj
    rw [if_neg (by omega), if_neg hforce, extDraw_lt ω.2 hk]

theorem integral_seqVar_irfft {n : ℕ} (hn : 2 ≤ n) (e : ℝ) (fmin : ℚ) :
    ∫ ω, seqVar n (irfftOut n e fmin (extDraw ω.1) (extDraw ω.2)) ∂gaussDraws n =
      (∑ j ∈ (Finset.range n).erase 0,
        sScale n e fmin (binIdx n j) ^ 2 * (1 + dofNy n (binIdx n j))) / (n : ℝ) ^ 2 := by
  have hpt : ∀ ω : (Fin (numBins n) → ℝ) × (Fin (numBins n) → ℝ),
      seqVar n (irfftOut n e fmin (extDraw ω.1) (extDraw ω.2)) =
      (∑ j ∈ (Finset.range n).erase 0,
        binPower n e fmin (extDraw ω.1) (extDraw ω.2) (binIdx n j)) / (n : ℝ) ^ 2 := by
    intro ω
    rw [seqVar_irfft (by omega) e fmin _ _]
    congr 1
    exact Finset.sum_congr rfl fun j _ => normSq_specFull_binPower n e fmin _ _ j
  simp only [hpt]
  rw [MeasureTheory.integral_div]
  congr 1
  rw [MeasureTheory.integral_finset_sum]
  · refine Finset.sum_congr rfl fun j hj => ?_
    obtain ⟨hj1, hjn⟩ := mem_erase_range hj
    obtain ⟨hb1, hb2⟩ := binIdx_bounds hj1 hjn
    exact integral_binPower e fmin hb1 (by unfold numBins; omega)
  · intro j hj
    obtain ⟨hj1, hjn⟩ := mem_erase_range hj
    obtain ⟨hb1, hb2⟩ := binIdx_bounds hj1 hjn
    exact integrable_binPower e fmin hb1 (by unfold numBins; omega)

theorem nyqFactor_pos (n : ℕ) : 0 < ((nyqFactor n : ℚ) : ℝ) := by
  unfold nyqFactor
  push_cast
  positivity

theorem wSum_pos {n : ℕ} (hn : 2 ≤ n) (e : ℝ) (fmin : ℚ) : 0 < wSum n e fmin := by
  unfold wSum
  refine Finset.sum_pos' (fun k _ => sq_nonneg _) ⟨1, ?_, ?_⟩
  · rw [Finset.mem_range]
    unfold numBins
    omega
  · have h1 : 0 < wMut n e fmin 1 := by
      unfold wMut
      rw [if_neg one_ne_zero]
      refine mul_pos (sScale_pos (by omega) e fmin 1) ?_
      split
      · exact nyqFactor_pos n
      · norm_num
    positivity

theorem stdTheo_sq {n : ℕ} (hn : 2 ≤ n) (e : ℝ) (fmin : ℚ) :
    stdTheo n e fmin ^ 2 = 4 * wSum n e fmin / (n : ℝ) ^ 2 := by
  unfold stdTheo
  rw [div_pow, mul_pow, Real.sq_sqrt (le_of_lt (wSum_pos hn e fmin))]
  norm_num

theorem seqVar_div_const (n : ℕ) (y : ℕ → ℝ) (c : ℝ) :
    seqVar n (fun t => y t / c) = seqVar n y / c ^ 2 := by
  unfold seqVar seqMean
  have h1 : ∀ t : ℕ, y t / c - (∑ s ∈ Finset.range n, y s / c) / n =
      (y t - (∑ s ∈ Finset.range n, y s) / n) / c := by
    intro t
    rw [← Finset.sum_div]
    ring
  simp only [h1, div_pow]
  rw [← Finset.sum_div]
  ring

/-- Claim C1: after the division by the theoretical standard deviation,
the expected sample variance of each realization — the expectation taken
over the injected standard-normal draws — equals exactly `1`, for every
`samples ≥ 8`, every real `exponent` and every (rational) `fmin`. -/
theorem claimC1_unit_variance : ∀ n : ℕ, 8 ≤ n → ∀ (e : ℝ) (fmin : ℚ),
    ∫ ω, seqVar n (output n e fmin (extDraw ω.1) (extDraw ω.2)) ∂gaussDraws n = 1 := by
  intro n hn e fmin
  have hn2 : 2 ≤ n := by omega
  have hpt : ∀ ω : (Fin (numBins n) → ℝ) × (Fin (numBins n) → ℝ),
      seqVar n (output n e fmin (extDraw ω.1) (extDraw ω.2)) =
      seqVar n (irfftOut n e fmin (extDraw ω.1) (extDraw ω.2)) / stdTheo n e fmin ^ 2 :=
    fun ω => seqVar_div_const n _ _
  simp only [hpt]
  rw [MeasureTheory.integral_div, integral_seqVar_irfft hn2 e fmin,
    sum_dof_eq_four_wSum hn2 e fmin, stdTheo_sq hn2 e fmin]
  have hne : 4 * wSum n e fmin / (n : ℝ) ^ 2 ≠ 0 := by
    have hw := wSum_pos hn2 e fmin
    have h2 : (0 : ℝ) < n := by exact_mod_cast (show 0 < n by omega)
    positivity
  exact div_self hne

/-- Witness for C1 at `samples = 8`, `exponent = 1`, `fmin = 0`. -/
theorem claimC1_witness :
    8 ≤ 8 ∧
    ∫ ω, seqVar 8 (output 8 1 0 (extDraw ω.1) (extDraw ω.2)) ∂gaussDraws 8 = 1 :=
  ⟨by norm_num, claimC1_unit_variance 8 (by norm_num) 1 0⟩

end ColoredNoise
